import Mathlib

/-!
Verification development for the airlines QA dashboard repository.

The repository consists of two scripts:
* `src/rca_breakdown.py` — a batch pipeline (`identify_mistaken_policies`,
  `process_data`) that turns a table of QA audit cases into a market×policy
  RCA breakdown table; and
* `src/rca_dashboard.py` — a Streamlit dashboard with its own copy of
  `identify_mistaken_policies`.

The definitions below are a shallow embedding of those scripts.  Policy-list
cells hold Python list literals that the scripts parse with `eval`; machine
floats are modelled with `ℚ` (the arithmetic involved is tiny count ratios,
and the claims under study are tolerance claims that are robust to the
float/rational gap); pandas tables are modelled as Lean lists of records.
-/

set_option maxHeartbeats 1000000

namespace AirlinesQA

/-- One parsed input row ("case") of the audit table, with the list-literal
fields already parsed.  Mirrors the columns consumed by the scripts:
`Market`, `Method`, `Policy List`, `Correct Call Policy List`,
`Correct Email Policy List`, `Is_Task_Correct`, `Controllable`, `RCA`. -/
structure Case where
  market : String
  method : String
  policyList : List String
  correctCallPolicyList : List String
  correctEmailPolicyList : List String
  isTaskCorrect : String
  controllable : String
  rca : String
deriving DecidableEq, Repr

namespace Breakdown

/-- `identify_mistaken_policies` from `src/rca_breakdown.py` (lines 9–20),
acting on a row whose list fields are already parsed.  Python's
`set(xs)` is modelled as `xs.dedup`; `list(s1 - s2)` is the sublist of the
deduplicated first list whose members do not occur in the second list. -/
def identify_mistaken_policies (row : Case) : List String × List String :=
  let correct_policies :=
    if row.method = "Call" then row.correctEmailPolicyList
    else row.correctCallPolicyList
  let sim_policies := row.policyList
  let correct_set := correct_policies.dedup
  let sim_set := sim_policies.dedup
  let fp := sim_set.filter (fun p => decide (p ∉ correct_set))
  let fn := correct_set.filter (fun p => decide (p ∉ sim_set))
  (fp, fn)

end Breakdown

namespace Dashboard

/-- `identify_mistaken_policies` from `src/rca_dashboard.py` (lines 21–29),
the dashboard's copy of the extractor, translated independently. -/
def identify_mistaken_policies (row : Case) : List String × List String :=
  let correct :=
    if row.method = "Call" then row.correctEmailPolicyList
    else row.correctCallPolicyList
  let sim := row.policyList
  let fp := sim.dedup.filter (fun p => decide (p ∉ correct.dedup))
  let fn := correct.dedup.filter (fun p => decide (p ∉ sim.dedup))
  (fp, fn)

end Dashboard

/-- An annotated case: the fields of the input row that the aggregation
steps of `process_data` consume, together with the derived `FP` and `FN`
columns added by `df.apply(identify_mistaken_policies, ...)` (line 29). -/
structure ECase where
  market : String
  isTaskCorrect : String
  controllable : String
  rca : String
  fp : List String
  fn : List String
deriving DecidableEq, Repr

/-- Annotate a parsed case with its `FP`/`FN` columns (line 29 of
`src/rca_breakdown.py`). -/
def annotate (c : Case) : ECase :=
  { market := c.market
    isTaskCorrect := c.isTaskCorrect
    controllable := c.controllable
    rca := c.rca
    fp := (Breakdown.identify_mistaken_policies c).1
    fn := (Breakdown.identify_mistaken_policies c).2 }

/-! ### Generic list-table machinery

pandas `groupby(...).size()` sorts the group keys; `merge` is an
association-list lookup.  We model sorting with an explicit stable
insertion sort so that its stability (relied on below when modelling
`sort_values`) is evident from the definition. -/

/-- Insert `x` into `l` before the first element `y` with `le x y`.
When `le` is a total preorder and `l` is sorted, the result is sorted, and
the insertion is stable: `x` ends up before any element it ties with. -/
def insertSorted {α : Type} (le : α → α → Bool) (x : α) : List α → List α
  | [] => [x]
  | y :: t => if le x y then x :: y :: t else y :: insertSorted le x t

/-- Stable insertion sort with respect to the Bool comparator `le`. -/
def sortLE {α : Type} (le : α → α → Bool) : List α → List α
  | [] => []
  | x :: t => insertSorted le x (sortLE le t)

/-- Group keys of the aggregation: a (market, policy) pair. -/
abbrev Key := String × String

/-- Strict lexicographic order on character streams, code point by code
point, the shorter prefix first — exactly how Python compares strings. -/
def charListLt : List Char → List Char → Bool
  | [], [] => false
  | [], _ :: _ => true
  | _ :: _, [] => false
  | a :: as, b :: bs =>
    if a.toNat < b.toNat then true
    else if b.toNat < a.toNat then false
    else charListLt as bs

/-- Strict code-point order on strings. -/
def strLt (a b : String) : Bool := charListLt a.data b.data

/-- Lexicographic comparator on strings.  Used only to fix the order in
which pandas emits sorted group keys; no claim below depends on the order
itself. -/
def strLE (a b : String) : Bool := strLt a b || decide (a = b)

/-- Lexicographic comparator on (market, policy) keys, matching the order
in which pandas `groupby(...).size()` emits its (sorted) group keys. -/
def keyLE (a b : Key) : Bool :=
  strLt a.1 b.1 || (decide (a.1 = b.1) && strLE a.2 b.2)

/-- `groupby(key).size()`: one output row per distinct key, keys sorted by
`le`, each carrying the number of occurrences of that key. -/
def groupSize {α : Type} [DecidableEq α] (le : α → α → Bool) (ks : List α) :
    List (α × Nat) :=
  (sortLE le ks.dedup).map (fun k => (k, ks.countP (fun x => decide (x = k))))

/-- Look a key up in a count table, defaulting missing keys to `0`.  This is
the composition of a pandas `merge` on that key with `fillna(0)`; the count
tables it is applied to have unique keys, so the first match is the only
match. -/
def lookup0 {α : Type} [DecidableEq α] (t : List (α × Nat)) (k : α) : Nat :=
  match t.find? (fun kv => decide (kv.1 = k)) with
  | some kv => kv.2
  | none => 0

/-- `pd.merge(l, r, on=key, how='outer').fillna(0)` for two count tables:
every key of `l` in order, then the keys of `r` that are absent from `l`,
each row carrying the (zero-filled) counts from both sides. -/
def outerMerge {α : Type} [DecidableEq α] (l r : List (α × Nat)) :
    List (α × Nat × Nat) :=
  l.map (fun kv => (kv.1, kv.2, lookup0 r kv.1)) ++
    (r.filter (fun kv => !(l.any (fun kv2 => decide (kv2.1 = kv.1))))).map
      (fun kv => (kv.1, lookup0 l kv.1, kv.2))

/-- Outer-merge two count tables and add the two zero-filled counts
(the `ctrl['Controllable Count'] = ... + ...` pattern, lines 65–69). -/
def mergeSum {α : Type} [DecidableEq α] (l r : List (α × Nat)) :
    List (α × Nat) :=
  (outerMerge l r).map (fun x => (x.1, x.2.1 + x.2.2))

/-! ### The aggregation pipeline of `process_data` (lines 29–105) -/

/-- `mistakes_df = df[df['Is_Task_Correct'] == 'wrong']` (line 30). -/
def mistakesOf (df : List ECase) : List ECase :=
  df.filter (fun e => decide (e.isTaskCorrect = "wrong"))

/-- The `controllable` label enumeration of line 32 (`['Yes', 'Both Wrong']`). -/
def controllableVals : List String := ["Yes", "Both Wrong"]

/-- The `non_controllable` label enumeration of line 33
(`['No', 'Both Right']`). -/
def nonControllableVals : List String := ["No", "Both Right"]

/-- `.explode(col).dropna(subset=[col])`: one exploded row per element of the
selected list column, each remembering its source case; a case with an empty
list contributes nothing (its exploded `NaN` row is dropped).  The exploded
row is keyed by (market, policy). -/
def explodeCol (sel : ECase → List String) (ms : List ECase) :
    List (Key × ECase) :=
  ms.flatMap (fun e => (sel e).map (fun p => ((e.market, p), e)))

/-- The group keys of an exploded column. -/
def keysOf (xs : List (Key × ECase)) : List Key := xs.map (fun x => x.1)

/-- `market_fp` (lines 36–40): explode `FP`, group by (Market, Policy),
count. -/
def market_fp (ms : List ECase) : List (Key × Nat) :=
  groupSize keyLE (keysOf (explodeCol (fun e => e.fp) ms))

/-- `market_fn` (lines 42–46): explode `FN`, group by (Market, Policy),
count. -/
def market_fn (ms : List ECase) : List (Key × Nat) :=
  groupSize keyLE (keysOf (explodeCol (fun e => e.fn) ms))

/-- `group_counts` (lines 53–58): restrict to cases whose `Controllable`
label is in `subset_vals`, explode the selected column, group by
(Market, Policy) and count. -/
def group_counts (ms : List ECase) (subset_vals : List String)
    (sel : ECase → List String) : List (Key × Nat) :=
  groupSize keyLE
    (keysOf (explodeCol sel
      (ms.filter (fun e => decide (e.controllable ∈ subset_vals)))))

/-- `ctrl` (lines 60–61, 65–66): outer-merge the controllable FP and FN
count tables and add them into `Controllable Count`. -/
def ctrlTable (ms : List ECase) : List (Key × Nat) :=
  mergeSum (group_counts ms controllableVals (fun e => e.fp))
    (group_counts ms controllableVals (fun e => e.fn))

/-- `nonctrl` (lines 62–63, 68–69): the same for the non-controllable
labels. -/
def nonctrlTable (ms : List ECase) : List (Key × Nat) :=
  mergeSum (group_counts ms nonControllableVals (fun e => e.fp))
    (group_counts ms nonControllableVals (fun e => e.fn))

/-- `totals = df.groupby('Market').size()` (line 78) — over the FULL case
table `df`, not just the mistaken cases. -/
def totalsTable (df : List ECase) : List (String × Nat) :=
  groupSize strLE (df.map (fun e => e.market))

/-- The concatenated exploded (key, RCA) occurrences behind `rca_all`
(lines 91–97): one entry per exploded FP row and one per exploded FN row,
each carrying its case's `RCA` label. -/
def rcaPairs (ms : List ECase) : List (Key × String) :=
  (explodeCol (fun e => e.fp) ms ++ explodeCol (fun e => e.fn) ms).map
    (fun x => (x.1, x.2.rca))

/-- The column set of the `rca_pivot` `unstack` (lines 98–99): the distinct
`RCA` values observed among the exploded mistake rows, in sorted order
(pandas sorts `unstack` columns). -/
def rcaColumnsOf (ms : List ECase) : List String :=
  sortLE strLE ((rcaPairs ms).map (fun x => x.2)).dedup

/-- `round(x, 2)` on the percentage scale, on exact rationals.  The scripts
round an IEEE double (`numpy` rounds halves to even); the claims proved
below only use that the result is within half a unit in the last place of
the exact ratio, which holds for either tie-breaking rule, so the simpler
half-up rounding is used. -/
def round2 (q : ℚ) : ℚ := ((Int.floor (q * 100 + 1 / 2) : ℤ) : ℚ) / 100

/-- The rounded percentage `round(c / t * 100, 2)` of lines 80–82, computed
with integer arithmetic (the `Rat` field operations are `@[irreducible]`
and would block kernel evaluation on concrete tables).  The theorem
`pct_eq_round2` proves it equal to `round2` of the exact rational ratio,
so every claim about the impact columns is stated against the latter. -/
def pct (c t : Nat) : ℚ :=
  if t = 0 then 0
  else Rat.divInt (((20000 * c + t) / (2 * t) : Nat) : ℤ) 100

/-- One row of the final breakdown table (the column list of lines 85–88
plus the dynamic RCA count columns of lines 91–105).  The percentage
columns are rendered as strings `"33.33%"` by the script; their numeric
content is modelled as the rounded rational.  `rcaCounts` lists the RCA
count columns in pivot-column order. -/
structure BRow where
  market : String
  policy : String
  mistakes : Nat
  fpCount : Nat
  fnCount : Nat
  overallImpact : ℚ
  impactControllable : ℚ
  impactNonControllable : ℚ
  controllableCount : Nat
  nonControllableCount : Nat
  rcaCounts : List (String × Nat)
deriving DecidableEq, Repr

/-- Build the `market_level` row for key `k` with outer-merged FP count `a`
and FN count `b`: `Mistakes = FP Count + FN Count` (line 49), the two
left-merged zero-filled controllability counts (lines 71–75), and the three
impact percentages (lines 80–82) divided by the market's total case count.
The RCA columns are attached later (line 100), so `rcaCounts` starts
empty. -/
def mkRow (df ms : List ECase) (k : Key) (a b : Nat) : BRow :=
  let tot := lookup0 (totalsTable df) k.1
  { market := k.1
    policy := k.2
    mistakes := a + b
    fpCount := a
    fnCount := b
    overallImpact := pct (a + b) tot
    impactControllable := pct (lookup0 (ctrlTable ms) k) tot
    impactNonControllable := pct (lookup0 (nonctrlTable ms) k) tot
    controllableCount := lookup0 (ctrlTable ms) k
    nonControllableCount := lookup0 (nonctrlTable ms) k
    rcaCounts := [] }

/-- The `market_level` table right after the grouping/merging steps
(lines 48–83), before the final sort: the outer merge of `market_fp` and
`market_fn` with one built row per merged key. -/
def baseRows (df : List ECase) : List BRow :=
  let ms := mistakesOf df
  (outerMerge (market_fp ms) (market_fn ms)).map
    (fun x => mkRow df ms x.1 x.2.1 x.2.2)

/-- Comparator behind `sort_values(by='Mistakes')`. -/
def mistakesLE (x y : BRow) : Bool := decide (x.mistakes ≤ y.mistakes)

/-- `market_level.sort_values(by='Mistakes', ascending=False)` (line 88).
pandas computes an ascending argsort of the column and reverses it
(`nargsort` applies `[::-1]` for `ascending=False`); the default sort kind
is numpy's introsort, which runs insertion sort — a stable sort — on small
arrays.  Modelled accordingly as a stable ascending sort followed by a
reversal; in particular tied rows come out in reversed input order. -/
def sortDesc (rows : List BRow) : List BRow :=
  (sortLE mistakesLE rows).reverse

/-- Attach the left-merged, zero-filled RCA pivot columns (lines 98–105) to
a row: one integer count per pivot column. -/
def attachRCA (ms : List ECase) (row : BRow) : BRow :=
  { row with
    rcaCounts := (rcaColumnsOf ms).map
      (fun r =>
        (r, (rcaPairs ms).countP
          (fun x => decide (x = ((row.market, row.policy), r))))) }

/-- The final breakdown table: the pivot's column set together with the
finished rows. -/
structure Breakdown where
  rcaColumns : List String
  rows : List BRow
deriving DecidableEq, Repr

/-- The whole aggregation of `process_data` (lines 30–105) on an annotated
case table. -/
def aggregate (df : List ECase) : Breakdown :=
  let ms := mistakesOf df
  { rcaColumns := rcaColumnsOf ms
    rows := (sortDesc (baseRows df)).map (attachRCA ms) }

/-- `process_data` on a table whose list-literal fields are already parsed:
annotate every row with its `FP`/`FN` columns (line 29), then aggregate. -/
def processTable (input : List Case) : Breakdown :=
  aggregate (input.map annotate)

/-! ### The textual layer: `eval` of the serialized list fields

`identify_mistaken_policies` receives the list-valued cells as text and
parses them with Python's `eval`.  On a well-formed list literal of quoted
strings `eval` returns the list; on anything else it raises an uncaught
exception (`SyntaxError` for malformed literals such as `"[A,B"`,
`NameError` for bracketed bare identifiers) that carries no row index and
no column name.  Both failure modes are modelled uniformly as the bare
error value `evalFailure`. -/

/-- The exception `eval` raises on a cell that is not a well-formed list
literal of quoted strings: a bare error with no row or field
identification. -/
structure PyError where
  msg : String
  rowIndex : Option Nat
  fieldName : Option String
deriving DecidableEq, Repr

/-- The (row-less, field-less) error produced by a failing `eval`. -/
def evalFailure : PyError :=
  { msg := "SyntaxError: invalid syntax", rowIndex := none, fieldName := none }

/-- Drop leading spaces of a character stream. -/
def skipSpaces : List Char → List Char
  | [] => []
  | c :: rest => if c = ' ' then skipSpaces rest else c :: rest

/-- Scan the body of a quoted string up to the closing quote `q`; returns
the body and the remainder, or `none` if the quote is never closed. -/
def scanStringBody (q : Char) : List Char → Option (List Char × List Char)
  | [] => none
  | c :: rest =>
    if c = q then some ([], rest)
    else
      match scanStringBody q rest with
      | some (s, rem) => some (c :: s, rem)
      | none => none

/-- The apostrophe character, Python's other string quote. -/
def singleQuote : Char := Char.ofNat 39

/-- Parse `item (ws ',' ws item)* ws ']' ws end` where each item is a
quoted string; `fuel` bounds the recursion (each item consumes at least one
character). -/
def parseItems : Nat → List Char → Option (List String)
  | 0, _ => none
  | fuel + 1, cs =>
    match skipSpaces cs with
    | [] => none
    | q :: rest =>
      if q = '"' || q = singleQuote then
        match scanStringBody q rest with
        | none => none
        | some (s, rem) =>
          match skipSpaces rem with
          | ']' :: rem2 =>
            if skipSpaces rem2 = [] then some [String.mk s] else none
          | ',' :: rem2 =>
            match parseItems fuel rem2 with
            | some ss => some (String.mk s :: ss)
            | none => none
          | _ => none
      else none

/-- Recognise a well-formed serialized list of quoted strings, e.g.
`["policy_a", "policy_b"]` or `[]`; `none` on anything else. -/
def parseListLit (s : String) : Option (List String) :=
  match skipSpaces s.data with
  | '[' :: rest =>
    match skipSpaces rest with
    | ']' :: rem => if skipSpaces rem = [] then some [] else none
    | cs => parseItems (cs.length + 1) cs
  | _ => none

/-- Python `eval` applied to a serialized-list cell: the parsed list on a
well-formed list literal, the bare `evalFailure` exception otherwise. -/
def evalList (s : String) : Except PyError (List String) :=
  match parseListLit s with
  | some xs => Except.ok xs
  | none => Except.error evalFailure

/-- One raw input row, with the three list-valued cells still in their
serialized text form. -/
structure RawCase where
  market : String
  method : String
  policyListText : String
  correctCallText : String
  correctEmailText : String
  isTaskCorrect : String
  controllable : String
  rca : String
deriving DecidableEq, Repr

/-- `identify_mistaken_policies` on a raw row, `eval` included
(lines 9–20 of `src/rca_breakdown.py`).  As in the source, the selected
correct-policy cell is evaluated first, then the applied-policy cell; the
correct-policy cell of the channel that `Method` does not select is never
evaluated. -/
def rawIdentify (row : RawCase) :
    Except PyError (List String × List String) :=
  match evalList
      (if row.method = "Call" then row.correctEmailText
       else row.correctCallText) with
  | Except.error e => Except.error e
  | Except.ok correct_policies =>
    match evalList row.policyListText with
    | Except.error e => Except.error e
    | Except.ok sim_policies =>
      let correct_set := correct_policies.dedup
      let sim_set := sim_policies.dedup
      Except.ok
        (sim_set.filter (fun p => decide (p ∉ correct_set)),
          correct_set.filter (fun p => decide (p ∉ sim_set)))

/-- Annotate a raw row, propagating an `eval` exception. -/
def rawAnnotate (row : RawCase) : Except PyError ECase :=
  match rawIdentify row with
  | Except.error e => Except.error e
  | Except.ok x =>
    Except.ok
      { market := row.market
        isTaskCorrect := row.isTaskCorrect
        controllable := row.controllable
        rca := row.rca
        fp := x.1
        fn := x.2 }

/-- `df.apply(identify_mistaken_policies, axis=1)` (line 29): row by row in
order; the first row whose `eval` raises aborts the whole application. -/
def applyIdentify : List RawCase → Except PyError (List ECase)
  | [] => Except.ok []
  | r :: t =>
    match rawAnnotate r with
    | Except.error e => Except.error e
    | Except.ok x =>
      match applyIdentify t with
      | Except.error e => Except.error e
      | Except.ok xs => Except.ok (x :: xs)

/-- `process_data` (lines 22–117) on the raw table, file I/O elided: apply
the extractor to every row — aborting the whole run on the first `eval`
exception, before any aggregation or output — then aggregate. -/
def process_data (raws : List RawCase) : Except PyError Breakdown :=
  match applyIdentify raws with
  | Except.error e => Except.error e
  | Except.ok df => Except.ok (aggregate df)

/-! ### Concrete tables used as witnesses and counterexamples -/

/-- The three-case end-to-end example of the specification (§8): one market
`"US"`, two mistaken cases and one correct case. -/
def sampleInput : List Case :=
  [ { market := "US", method := "Email", policyList := ["A", "B"],
      correctCallPolicyList := ["A"], correctEmailPolicyList := ["Z"],
      isTaskCorrect := "wrong", controllable := "Yes", rca := "Training" },
    { market := "US", method := "Email", policyList := ["A"],
      correctCallPolicyList := ["A"], correctEmailPolicyList := [],
      isTaskCorrect := "correct", controllable := "", rca := "" },
    { market := "US", method := "Email", policyList := ["C"],
      correctCallPolicyList := ["A", "C"], correctEmailPolicyList := [],
      isTaskCorrect := "wrong", controllable := "No", rca := "System" } ]

/-- The breakdown row that `processTable sampleInput` produces for
(US, "A"): one false negative from the third sample case. -/
def sampleRowA : BRow :=
  { market := "US", policy := "A", mistakes := 1, fpCount := 0, fnCount := 1,
    overallImpact := Rat.divInt 3333 100, impactControllable := 0,
    impactNonControllable := Rat.divInt 3333 100, controllableCount := 0,
    nonControllableCount := 1, rcaCounts := [("System", 1), ("Training", 0)] }

/-- A two-case table producing two output rows that tie on `Mistakes`:
each case has one false positive and one false negative, so the keys
(M, P1) and (M, P2) both appear in the FP and the FN group tables (making
the pre-sort row order independent of the outer-merge ordering convention)
with `Mistakes = 2` each. -/
def tieInput : List Case :=
  [ { market := "M", method := "Email", policyList := ["P1"],
      correctCallPolicyList := ["P2"], correctEmailPolicyList := [],
      isTaskCorrect := "wrong", controllable := "Yes", rca := "R" },
    { market := "M", method := "Email", policyList := ["P2"],
      correctCallPolicyList := ["P1"], correctEmailPolicyList := [],
      isTaskCorrect := "wrong", controllable := "Yes", rca := "R" } ]

/-- A table in which the RCA value `"System"` occurs in the dataset but
only on a case that is not mistaken, so the pivot of the exploded mistake
rows never sees it. -/
def rcaInput : List Case :=
  [ { market := "US", method := "Email", policyList := ["A"],
      correctCallPolicyList := [], correctEmailPolicyList := [],
      isTaskCorrect := "wrong", controllable := "Yes", rca := "Training" },
    { market := "US", method := "Email", policyList := ["B"],
      correctCallPolicyList := ["B"], correctEmailPolicyList := [],
      isTaskCorrect := "correct", controllable := "Yes", rca := "System" } ]

/-- A raw row whose applied-policy cell is the malformed list text
`"[A,B"` of the specification's example; both correct-policy cells are
well-formed. -/
def badAppliedRaw : RawCase :=
  { market := "US", method := "Email", policyListText := "[A,B",
    correctCallText := "[\"A\"]", correctEmailText := "[]",
    isTaskCorrect := "wrong", controllable := "Yes", rca := "Training" }

/-- A raw row whose call-channel correct-policy cell is malformed, but
whose `Method` is `"Call"` — so the script selects the email-channel cell
and never evaluates the malformed one. -/
def unusedBadRaw : RawCase :=
  { market := "US", method := "Call", policyListText := "[\"A\"]",
    correctCallText := "[broken", correctEmailText := "[\"A\"]",
    isTaskCorrect := "correct", controllable := "Yes", rca := "Training" }

/-! ### Lemmas about the sorting primitive -/

theorem insertSorted_perm {α : Type} (le : α → α → Bool) (x : α)
    (l : List α) : List.Perm (insertSorted le x l) (x :: l) := by
  induction l with
  | nil => exact List.Perm.refl _
  | cons y t ih =>
    simp only [insertSorted]
    split
    · exact List.Perm.refl _
    · exact (List.Perm.cons y ih).trans (List.Perm.swap x y t)

theorem sortLE_perm {α : Type} (le : α → α → Bool) (l : List α) :
    List.Perm (sortLE le l) l := by
  induction l with
  | nil => exact List.Perm.refl _
  | cons x t ih =>
    exact (insertSorted_perm le x (sortLE le t)).trans (List.Perm.cons x ih)

theorem mem_sortLE {α : Type} (le : α → α → Bool) (l : List α) (a : α) :
    a ∈ sortLE le l ↔ a ∈ l :=
  (sortLE_perm le l).mem_iff

theorem pairwise_insertSorted {α : Type} {le : α → α → Bool}
    (htot : ∀ a b, le a b = true ∨ le b a = true)
    (htrans : ∀ a b c, le a b = true → le b c = true → le a c = true)
    (x : α) {l : List α} (h : l.Pairwise (fun a b => le a b = true)) :
    (insertSorted le x l).Pairwise (fun a b => le a b = true) := by
  induction l with
  | nil => simp [insertSorted]
  | cons y t ih =>
    simp only [insertSorted]
    rcases List.pairwise_cons.mp h with ⟨hy, ht⟩
    split
    · rename_i hxy
      refine List.pairwise_cons.mpr ⟨?_, h⟩
      intro z hz
      rcases List.mem_cons.mp hz with rfl | hzt
      · exact hxy
      · exact htrans x y z hxy (hy z hzt)
    · rename_i hxy
      have hyx : le y x = true := by
        rcases htot x y with hh | hh
        · exact absurd hh hxy
        · exact hh
      refine List.pairwise_cons.mpr ⟨?_, ih ht⟩
      intro z hz
      rcases List.mem_cons.mp ((insertSorted_perm le x t).mem_iff.mp hz) with
        rfl | hzt
      · exact hyx
      · exact hy z hzt

theorem pairwise_sortLE {α : Type} {le : α → α → Bool}
    (htot : ∀ a b, le a b = true ∨ le b a = true)
    (htrans : ∀ a b c, le a b = true → le b c = true → le a c = true)
    (l : List α) :
    (sortLE le l).Pairwise (fun a b => le a b = true) := by
  induction l with
  | nil => simp [sortLE]
  | cons x t ih => exact pairwise_insertSorted htot htrans x ih

/-! ### Lemmas about count-table lookups -/

theorem lookup0_nil {α : Type} [DecidableEq α] (k : α) :
    lookup0 ([] : List (α × Nat)) k = 0 := rfl

theorem lookup0_cons {α : Type} [DecidableEq α] (kv : α × Nat)
    (t : List (α × Nat)) (k : α) :
    lookup0 (kv :: t) k = if kv.1 = k then kv.2 else lookup0 t k := by
  unfold lookup0
  by_cases h : kv.1 = k
  · rw [List.find?_cons_of_pos _ (by simpa using h)]
    simp [h]
  · rw [List.find?_cons_of_neg _ (by simpa using h)]
    simp [h]

theorem lookup0_map_graph {α : Type} [DecidableEq α] (l : List α)
    (f : α → Nat) (k : α) :
    lookup0 (l.map (fun x => (x, f x))) k = if k ∈ l then f k else 0 := by
  induction l with
  | nil => simp [lookup0]
  | cons x t ih =>
    rw [List.map_cons, lookup0_cons, ih]
    by_cases hx : x = k
    · subst hx
      simp
    · have hx2 : ¬ k = x := fun h => hx h.symm
      simp [hx, hx2, List.mem_cons]

theorem keys_groupSize {α : Type} [DecidableEq α] (le : α → α → Bool)
    (ks : List α) :
    (groupSize le ks).map (fun x => x.1) = sortLE le ks.dedup := by
  unfold groupSize
  rw [List.map_map]
  have hc : ((fun x : α × Nat => x.1) ∘
      fun k => (k, ks.countP (fun x => decide (x = k)))) = fun k => k := rfl
  rw [hc, List.map_id']

theorem nodup_keys_groupSize {α : Type} [DecidableEq α] (le : α → α → Bool)
    (ks : List α) : ((groupSize le ks).map (fun x => x.1)).Nodup := by
  rw [keys_groupSize]
  exact ((sortLE_perm le ks.dedup).nodup_iff).mpr (List.nodup_dedup ks)

theorem mem_keys_groupSize {α : Type} [DecidableEq α] (le : α → α → Bool)
    (ks : List α) (k : α) :
    k ∈ (groupSize le ks).map (fun x => x.1) ↔ k ∈ ks := by
  rw [keys_groupSize, mem_sortLE, List.mem_dedup]

theorem lookup0_groupSize {α : Type} [DecidableEq α] (le : α → α → Bool)
    (ks : List α) (k : α) :
    lookup0 (groupSize le ks) k = ks.countP (fun x => decide (x = k)) := by
  unfold groupSize
  rw [lookup0_map_graph]
  by_cases h : k ∈ sortLE le ks.dedup
  · simp [h]
  · have hk : k ∉ ks := fun hmem =>
      h ((mem_sortLE le ks.dedup k).mpr (List.mem_dedup.mpr hmem))
    simp only [h, if_false]
    symm
    rw [List.countP_eq_zero]
    intro a ha hdec
    exact hk (of_decide_eq_true hdec ▸ ha)

theorem lookup0_eq_zero_of_not_mem {α : Type} [DecidableEq α]
    {t : List (α × Nat)} {k : α} (h : k ∉ t.map (fun x => x.1)) :
    lookup0 t k = 0 := by
  induction t with
  | nil => rfl
  | cons kv rest ih =>
    simp only [List.map_cons, List.mem_cons] at h
    push_neg at h
    rw [lookup0_cons, if_neg (fun he => h.1 he.symm)]
    exact ih h.2

theorem lookup0_of_mem_nodup {α : Type} [DecidableEq α] {t : List (α × Nat)}
    (hnd : (t.map (fun x => x.1)).Nodup) {k : α} {a : Nat}
    (h : (k, a) ∈ t) : lookup0 t k = a := by
  induction t with
  | nil => cases h
  | cons kv rest ih =>
    simp only [List.map_cons] at hnd
    have hnd2 := List.nodup_cons.mp hnd
    rcases List.mem_cons.mp h with heq | hrest
    · rw [← heq, lookup0_cons]
      simp
    · have hk : k ∈ rest.map (fun x => x.1) :=
        List.mem_map.mpr ⟨(k, a), hrest, rfl⟩
      rw [lookup0_cons, if_neg (fun (he : kv.1 = k) => hnd2.1 (he ▸ hk))]
      exact ih hnd2.2 hrest

theorem mem_outerMerge {α : Type} [DecidableEq α] {l r : List (α × Nat)}
    (hl : (l.map (fun x => x.1)).Nodup) (hr : (r.map (fun x => x.1)).Nodup)
    {x : α × Nat × Nat} (hx : x ∈ outerMerge l r) :
    x.2.1 = lookup0 l x.1 ∧ x.2.2 = lookup0 r x.1 ∧
      (x.1 ∈ l.map (fun y => y.1) ∨ x.1 ∈ r.map (fun y => y.1)) := by
  unfold outerMerge at hx
  rcases List.mem_append.mp hx with hleft | hright
  · obtain ⟨kv, hkv, heq⟩ := List.mem_map.mp hleft
    subst heq
    exact ⟨(lookup0_of_mem_nodup hl hkv).symm, rfl,
      Or.inl (List.mem_map.mpr ⟨kv, hkv, rfl⟩)⟩
  · obtain ⟨kv, hkv2, heq⟩ := List.mem_map.mp hright
    obtain ⟨hkvr, _⟩ := List.mem_filter.mp hkv2
    subst heq
    exact ⟨rfl, (lookup0_of_mem_nodup hr hkvr).symm,
      Or.inr (List.mem_map.mpr ⟨kv, hkvr, rfl⟩)⟩

theorem find?_filter_congr {α : Type} {p C : α → Bool} (l : List α)
    (h : ∀ x ∈ l, p x = true → C x = true) :
    (l.filter C).find? p = l.find? p := by
  induction l with
  | nil => rfl
  | cons x t ih =>
    have htail : ∀ y ∈ t, p y = true → C y = true :=
      fun y hy => h y (List.mem_cons_of_mem x hy)
    by_cases hC : C x = true
    · rw [List.filter_cons_of_pos hC]
      by_cases hp : p x = true
      · rw [List.find?_cons_of_pos _ hp, List.find?_cons_of_pos _ hp]
      · rw [List.find?_cons_of_neg _ (by simpa using hp),
          List.find?_cons_of_neg _ (by simpa using hp)]
        exact ih htail
    · have hp : p x = false := by
        cases hpx : p x
        · rfl
        · exact absurd (h x (List.mem_cons_self x t) hpx) hC
      rw [List.filter_cons_of_neg (by simpa using hC),
        List.find?_cons_of_neg _ (by simp [hp])]
      exact ih htail

theorem lookup0_filter_congr {α : Type} [DecidableEq α]
    {C : α × Nat → Bool} (t : List (α × Nat)) (k : α)
    (h : ∀ x ∈ t, x.1 = k → C x = true) :
    lookup0 (t.filter C) k = lookup0 t k := by
  unfold lookup0
  rw [find?_filter_congr]
  intro x hx hp
  exact h x hx (of_decide_eq_true hp)

theorem lookup0_map_add_right {α : Type} [DecidableEq α]
    (l r : List (α × Nat)) (k : α) :
    lookup0 (l.map (fun kv => (kv.1, kv.2 + lookup0 r kv.1))) k =
      if k ∈ l.map (fun x => x.1) then lookup0 l k + lookup0 r k else 0 := by
  induction l with
  | nil => simp [lookup0]
  | cons kv t ih =>
    rw [List.map_cons, lookup0_cons, ih]
    by_cases h : kv.1 = k
    · subst h
      simp [lookup0_cons]
    · have h2 : ¬ k = kv.1 := fun he => h he.symm
      rw [if_neg h]
      have hmem : (k ∈ kv.1 :: t.map (fun x => x.1)) ↔
          k ∈ t.map (fun x => x.1) := by
        simp [List.mem_cons, h2]
      rw [List.map_cons, if_congr hmem rfl rfl, lookup0_cons, if_neg h]

theorem lookup0_map_add_left {α : Type} [DecidableEq α]
    (s l : List (α × Nat)) (k : α) :
    lookup0 (s.map (fun kv => (kv.1, lookup0 l kv.1 + kv.2))) k =
      if k ∈ s.map (fun x => x.1) then lookup0 l k + lookup0 s k else 0 := by
  induction s with
  | nil => simp [lookup0]
  | cons kv t ih =>
    rw [List.map_cons, lookup0_cons, ih]
    by_cases h : kv.1 = k
    · subst h
      simp [lookup0_cons]
    · have h2 : ¬ k = kv.1 := fun he => h he.symm
      rw [if_neg h]
      have hmem : (k ∈ kv.1 :: t.map (fun x => x.1)) ↔
          k ∈ t.map (fun x => x.1) := by
        simp [List.mem_cons, h2]
      rw [List.map_cons, if_congr hmem rfl rfl, lookup0_cons, if_neg h]

theorem lookup0_append {α : Type} [DecidableEq α] (s t : List (α × Nat))
    (k : α) :
    lookup0 (s ++ t) k =
      if k ∈ s.map (fun x => x.1) then lookup0 s k else lookup0 t k := by
  induction s with
  | nil => simp [lookup0]
  | cons kv s1 ih =>
    rw [List.cons_append, lookup0_cons, ih]
    by_cases h : kv.1 = k
    · have hmem : k ∈ (kv :: s1).map (fun x => x.1) := by
        simp [List.mem_cons, h.symm]
      rw [if_pos h, if_pos hmem, lookup0_cons, if_pos h]
    · have h2 : ¬ k = kv.1 := fun he => h he.symm
      rw [if_neg h]
      have hmem : (k ∈ (kv :: s1).map (fun x => x.1)) ↔
          k ∈ s1.map (fun x => x.1) := by
        simp [List.mem_cons, h2]
      rw [if_congr hmem rfl rfl]
      by_cases hmem2 : k ∈ s1.map (fun x => x.1)
      · rw [if_pos hmem2, if_pos hmem2, lookup0_cons, if_neg h]
      · rw [if_neg hmem2, if_neg hmem2]

/-! ### Counting exploded rows -/

theorem countP_nodup_mem {α : Type} [DecidableEq α] {l : List α}
    (hnd : l.Nodup) (p : α) :
    l.countP (fun q => decide (q = p)) = if p ∈ l then 1 else 0 := by
  induction l with
  | nil => simp
  | cons x t ih =>
    obtain ⟨hx, ht⟩ := List.nodup_cons.mp hnd
    rw [List.countP_cons, ih ht]
    by_cases hxp : x = p
    · subst hxp
      have : x ∉ t := hx
      simp [this]
    · have hpx : ¬ p = x := fun he => hxp he.symm
      simp [List.mem_cons, hxp, hpx]

theorem keysOf_explodeCol_cons (sel : ECase → List String) (e : ECase)
    (t : List ECase) :
    keysOf (explodeCol sel (e :: t)) =
      (sel e).map (fun q => (e.market, q)) ++ keysOf (explodeCol sel t) := by
  unfold keysOf explodeCol
  rw [List.flatMap_cons, List.map_append, List.map_map]
  rfl

theorem countP_keysOf_explode (sel : ECase → List String) (ms : List ECase)
    (hnd : ∀ e ∈ ms, (sel e).Nodup) (m p : String) :
    (keysOf (explodeCol sel ms)).countP (fun x => decide (x = (m, p))) =
      ms.countP (fun e => decide (e.market = m) && decide (p ∈ sel e)) := by
  induction ms with
  | nil => rfl
  | cons e t ih =>
    have htail : ∀ x ∈ t, (sel x).Nodup :=
      fun x hx => hnd x (List.mem_cons_of_mem e hx)
    have hhead : ((sel e).map (fun q => (e.market, q))).countP
        (fun x => decide (x = (m, p))) =
        if (decide (e.market = m) && decide (p ∈ sel e)) = true then 1
        else 0 := by
      rw [List.countP_map]
      by_cases hm : e.market = m
      · have hcong : ∀ q ∈ sel e,
            ((fun x : Key => decide (x = (m, p))) ∘
              (fun q => (e.market, q))) q = true ↔ decide (q = p) = true := by
          intro q _
          simp [Prod.ext_iff, hm]
        rw [List.countP_congr hcong,
          countP_nodup_mem (hnd e (List.mem_cons_self e t)) p]
        by_cases hp : p ∈ sel e <;> simp [hm, hp]
      · have hz : (sel e).countP ((fun x : Key => decide (x = (m, p))) ∘
            (fun q => (e.market, q))) = 0 := by
          rw [List.countP_eq_zero]
          intro q _ hq
          have := of_decide_eq_true hq
          exact hm (congrArg Prod.fst this)
        rw [hz]
        simp [hm]
    rw [keysOf_explodeCol_cons, List.countP_append, ih htail,
      List.countP_cons, hhead]
    omega

/-! ### Facts about the annotated rows -/

theorem annotate_fp_nodup (c : Case) : (annotate c).fp.Nodup :=
  List.Nodup.filter _ (List.nodup_dedup _)

theorem annotate_fn_nodup (c : Case) : (annotate c).fn.Nodup :=
  List.Nodup.filter _ (List.nodup_dedup _)

theorem mistakes_fp_nodup (input : List Case) :
    ∀ e ∈ mistakesOf (input.map annotate), e.fp.Nodup := by
  intro e he
  have h1 : e ∈ input.map annotate := List.mem_of_mem_filter he
  obtain ⟨c, _, rfl⟩ := List.mem_map.mp h1
  exact annotate_fp_nodup c

theorem mistakes_fn_nodup (input : List Case) :
    ∀ e ∈ mistakesOf (input.map annotate), e.fn.Nodup := by
  intro e he
  have h1 : e ∈ input.map annotate := List.mem_of_mem_filter he
  obtain ⟨c, _, rfl⟩ := List.mem_map.mp h1
  exact annotate_fn_nodup c

theorem lookup0_mergeSum {α : Type} [DecidableEq α] (l r : List (α × Nat))
    (k : α) :
    lookup0 (mergeSum l r) k = lookup0 l k + lookup0 r k := by
  unfold mergeSum outerMerge
  rw [List.map_append, List.map_map, List.map_map]
  have h1 : ((fun x : α × Nat × Nat => (x.1, x.2.1 + x.2.2)) ∘
      fun kv : α × Nat => (kv.1, kv.2, lookup0 r kv.1)) =
      fun kv : α × Nat => (kv.1, kv.2 + lookup0 r kv.1) := rfl
  have h2 : ((fun x : α × Nat × Nat => (x.1, x.2.1 + x.2.2)) ∘
      fun kv : α × Nat => (kv.1, lookup0 l kv.1, kv.2)) =
      fun kv : α × Nat => (kv.1, lookup0 l kv.1 + kv.2) := rfl
  rw [h1, h2, lookup0_append]
  have hkeys : (l.map (fun kv : α × Nat => (kv.1, kv.2 + lookup0 r kv.1))).map
      (fun x => x.1) = l.map (fun x => x.1) := by
    rw [List.map_map]
    rfl
  rw [hkeys]
  by_cases hkl : k ∈ l.map (fun x => x.1)
  · rw [if_pos hkl, lookup0_map_add_right, if_pos hkl]
  · rw [if_neg hkl, lookup0_map_add_left,
      lookup0_eq_zero_of_not_mem hkl]
    have hC : ∀ x ∈ r, x.1 = k →
        (!(l.any (fun kv2 => decide (kv2.1 = x.1)))) = true := by
      intro x _ hxk
      rw [hxk]
      simp only [Bool.not_eq_true']
      rw [List.any_eq_false]
      intro kv2 hkv2
      simp only [decide_eq_true_eq]
      intro heq
      exact hkl (List.mem_map.mpr ⟨kv2, hkv2, heq⟩)
    have hfl := lookup0_filter_congr (C := fun kv =>
      !(l.any (fun kv2 => decide (kv2.1 = kv.1)))) r k hC
    by_cases hkr : k ∈
        (r.filter (fun kv => !(l.any (fun kv2 => decide (kv2.1 = kv.1))))).map
          (fun x => x.1)
    · rw [if_pos hkr, hfl, Nat.zero_add]
    · rw [if_neg hkr]
      have hkr2 : k ∉ r.map (fun x => x.1) := by
        intro hmem
        obtain ⟨kv, hkv, heq⟩ := List.mem_map.mp hmem
        refine hkr (List.mem_map.mpr ⟨kv, List.mem_filter.mpr ⟨hkv, ?_⟩, heq⟩)
        exact hC kv hkv heq
      rw [lookup0_eq_zero_of_not_mem hkr2]

/-! ### Characterisation of the final breakdown rows -/

/-- Every row of the final table is fully characterised by per-case counts
over the mistaken (annotated) cases of its (market, policy) key, with the
market totals taken over the whole input. -/
theorem mem_rows_char {input : List Case} {row : BRow}
    (h : row ∈ (processTable input).rows) :
    row.fpCount = (mistakesOf (input.map annotate)).countP
      (fun e => decide (e.market = row.market) &&
        decide (row.policy ∈ e.fp)) ∧
    row.fnCount = (mistakesOf (input.map annotate)).countP
      (fun e => decide (e.market = row.market) &&
        decide (row.policy ∈ e.fn)) ∧
    row.mistakes = row.fpCount + row.fnCount ∧
    row.controllableCount =
      (mistakesOf (input.map annotate)).countP
        (fun e => (decide (e.market = row.market) &&
          decide (row.policy ∈ e.fp)) &&
          decide (e.controllable ∈ controllableVals)) +
      (mistakesOf (input.map annotate)).countP
        (fun e => (decide (e.market = row.market) &&
          decide (row.policy ∈ e.fn)) &&
          decide (e.controllable ∈ controllableVals)) ∧
    row.nonControllableCount =
      (mistakesOf (input.map annotate)).countP
        (fun e => (decide (e.market = row.market) &&
          decide (row.policy ∈ e.fp)) &&
          decide (e.controllable ∈ nonControllableVals)) +
      (mistakesOf (input.map annotate)).countP
        (fun e => (decide (e.market = row.market) &&
          decide (row.policy ∈ e.fn)) &&
          decide (e.controllable ∈ nonControllableVals)) ∧
    row.overallImpact = pct row.mistakes
      (input.countP (fun c => decide (c.market = row.market))) ∧
    row.impactControllable = pct row.controllableCount
      (input.countP (fun c => decide (c.market = row.market))) ∧
    row.impactNonControllable = pct row.nonControllableCount
      (input.countP (fun c => decide (c.market = row.market))) ∧
    row.rcaCounts = (rcaColumnsOf (mistakesOf (input.map annotate))).map
      (fun r => (r, (rcaPairs (mistakesOf (input.map annotate))).countP
        (fun y => decide (y = ((row.market, row.policy), r))))) ∧
    1 ≤ row.mistakes := by
  simp only [processTable, aggregate] at h
  obtain ⟨r0, hr0, rfl⟩ := List.mem_map.mp h
  simp only [sortDesc, List.mem_reverse] at hr0
  have hr1 : r0 ∈ baseRows (input.map annotate) :=
    (sortLE_perm mistakesLE _).mem_iff.mp hr0
  simp only [baseRows] at hr1
  obtain ⟨x, hx, rfl⟩ := List.mem_map.mp hr1
  obtain ⟨ha, hb, hkey⟩ :=
    mem_outerMerge (l := market_fp (mistakesOf (input.map annotate)))
      (r := market_fn (mistakesOf (input.map annotate)))
      (nodup_keys_groupSize keyLE _) (nodup_keys_groupSize keyLE _) hx
  have hfp_eq : x.2.1 =
      (mistakesOf (input.map annotate)).countP
        (fun e => decide (e.market = x.1.1) && decide (x.1.2 ∈ e.fp)) := by
    refine (ha.trans ?_)
    refine (lookup0_groupSize keyLE _ (x.1.1, x.1.2)).trans ?_
    exact countP_keysOf_explode _ _ (mistakes_fp_nodup input) x.1.1 x.1.2
  have hfn_eq : x.2.2 =
      (mistakesOf (input.map annotate)).countP
        (fun e => decide (e.market = x.1.1) && decide (x.1.2 ∈ e.fn)) := by
    refine (hb.trans ?_)
    refine (lookup0_groupSize keyLE _ (x.1.1, x.1.2)).trans ?_
    exact countP_keysOf_explode _ _ (mistakes_fn_nodup input) x.1.1 x.1.2
  have hgc : ∀ (vals : List String) (sel : ECase → List String),
      (∀ e ∈ mistakesOf (input.map annotate), (sel e).Nodup) →
      lookup0 (group_counts (mistakesOf (input.map annotate)) vals sel)
          (x.1.1, x.1.2) =
        (mistakesOf (input.map annotate)).countP
          (fun e => (decide (e.market = x.1.1) && decide (x.1.2 ∈ sel e)) &&
            decide (e.controllable ∈ vals)) := by
    intro vals sel hnd
    refine (lookup0_groupSize keyLE _ (x.1.1, x.1.2)).trans ?_
    refine (countP_keysOf_explode sel _
      (fun e he => hnd e (List.mem_of_mem_filter he)) x.1.1 x.1.2).trans ?_
    exact List.countP_filter _ _ _
  have hctrl : lookup0 (ctrlTable (mistakesOf (input.map annotate))) x.1 =
      (mistakesOf (input.map annotate)).countP
        (fun e => (decide (e.market = x.1.1) && decide (x.1.2 ∈ e.fp)) &&
          decide (e.controllable ∈ controllableVals)) +
      (mistakesOf (input.map annotate)).countP
        (fun e => (decide (e.market = x.1.1) && decide (x.1.2 ∈ e.fn)) &&
          decide (e.controllable ∈ controllableVals)) := by
    refine (lookup0_mergeSum _ _ x.1).trans ?_
    rw [hgc controllableVals (fun e => e.fp) (mistakes_fp_nodup input),
      hgc controllableVals (fun e => e.fn) (mistakes_fn_nodup input)]
  have hnonctrl :
      lookup0 (nonctrlTable (mistakesOf (input.map annotate))) x.1 =
      (mistakesOf (input.map annotate)).countP
        (fun e => (decide (e.market = x.1.1) && decide (x.1.2 ∈ e.fp)) &&
          decide (e.controllable ∈ nonControllableVals)) +
      (mistakesOf (input.map annotate)).countP
        (fun e => (decide (e.market = x.1.1) && decide (x.1.2 ∈ e.fn)) &&
          decide (e.controllable ∈ nonControllableVals)) := by
    refine (lookup0_mergeSum _ _ x.1).trans ?_
    rw [hgc nonControllableVals (fun e => e.fp) (mistakes_fp_nodup input),
      hgc nonControllableVals (fun e => e.fn) (mistakes_fn_nodup input)]
  have etot : lookup0 (totalsTable (input.map annotate)) x.1.1 =
      input.countP (fun c => decide (c.market = x.1.1)) := by
    refine (lookup0_groupSize strLE _ x.1.1).trans ?_
    refine (List.countP_map _ _ _).trans ?_
    exact List.countP_map _ _ _
  have hpos : 1 ≤ x.2.1 + x.2.2 := by
    rcases hkey with hkfp | hkfn
    · have hmem : x.1 ∈ keysOf (explodeCol (fun e => e.fp)
          (mistakesOf (input.map annotate))) :=
        (mem_keys_groupSize keyLE _ x.1).mp hkfp
      have hcp : 0 < (keysOf (explodeCol (fun e => e.fp)
          (mistakesOf (input.map annotate)))).countP
            (fun y => decide (y = x.1)) :=
        List.countP_pos_iff.mpr ⟨x.1, hmem, by simp⟩
      have hax : x.2.1 = (keysOf (explodeCol (fun e => e.fp)
          (mistakesOf (input.map annotate)))).countP
            (fun y => decide (y = x.1)) :=
        ha.trans (lookup0_groupSize keyLE _ x.1)
      omega
    · have hmem : x.1 ∈ keysOf (explodeCol (fun e => e.fn)
          (mistakesOf (input.map annotate))) :=
        (mem_keys_groupSize keyLE _ x.1).mp hkfn
      have hcp : 0 < (keysOf (explodeCol (fun e => e.fn)
          (mistakesOf (input.map annotate)))).countP
            (fun y => decide (y = x.1)) :=
        List.countP_pos_iff.mpr ⟨x.1, hmem, by simp⟩
      have hbx : x.2.2 = (keysOf (explodeCol (fun e => e.fn)
          (mistakesOf (input.map annotate)))).countP
            (fun y => decide (y = x.1)) :=
        hb.trans (lookup0_groupSize keyLE _ x.1)
      omega
  exact ⟨hfp_eq, hfn_eq, rfl, hctrl, hnonctrl,
    congrArg (pct (x.2.1 + x.2.2)) etot,
    congrArg (pct (lookup0 (ctrlTable (mistakesOf (input.map annotate)))
      x.1)) etot,
    congrArg (pct (lookup0 (nonctrlTable (mistakesOf (input.map annotate)))
      x.1)) etot,
    rfl, hpos⟩

/-! ### Arithmetic lemmas for the impact percentages -/

/-- The integer-arithmetic percentage equals rounding the exact rational
ratio: `pct c t = round(c / t * 100, 2)`. -/
theorem pct_eq_round2 (c t : Nat) :
    pct c t = round2 ((c : ℚ) / (t : ℚ) * 100) := by
  unfold pct round2
  by_cases ht : t = 0
  · subst ht
    rw [if_pos rfl]
    rw [Nat.cast_zero, div_zero, zero_mul, zero_mul, zero_add]
    have h0 : (⌊(1 : ℚ) / 2⌋ : ℤ) = 0 := by
      rw [Int.floor_eq_zero_iff]
      constructor <;> norm_num
    rw [h0]
    norm_num
  · rw [if_neg ht]
    have htQ : (t : ℚ) ≠ 0 := Nat.cast_ne_zero.mpr ht
    have harg : (c : ℚ) / (t : ℚ) * 100 * 100 + 1 / 2 =
        (((20000 * c + t : ℕ) : ℤ) : ℚ) / ((2 * t : ℕ) : ℚ) := by
      push_cast
      field_simp
      ring
    rw [harg, Rat.floor_intCast_div_natCast, Rat.divInt_eq_div, Int.natCast_div]
    push_cast
    ring

/-- Half-up rounding to two decimals moves a rational by at most `1/200`,
in particular by at most `0.01`. -/
theorem round2_close (q : ℚ) : |round2 q - q| ≤ 1 / 100 := by
  unfold round2
  have h1 : q * 100 + 1 / 2 - 1 < ((⌊q * 100 + 1 / 2⌋ : ℤ) : ℚ) :=
    Int.sub_one_lt_floor _
  have h2 : ((⌊q * 100 + 1 / 2⌋ : ℤ) : ℚ) ≤ q * 100 + 1 / 2 :=
    Int.floor_le _
  rw [abs_le]
  constructor <;> [linarith; linarith]

/-! ### Summing the RCA pivot columns -/

theorem sum_map_add {α : Type} (rs : List α) (f g : α → Nat) :
    ((rs.map (fun r => f r + g r)).sum) = (rs.map f).sum + (rs.map g).sum := by
  induction rs with
  | nil => rfl
  | cons x t ih =>
    simp only [List.map_cons, List.sum_cons, ih]
    omega

theorem sum_map_single {α : Type} [DecidableEq α] {rs : List α}
    (hnd : rs.Nodup) {a : α} (hmem : a ∈ rs) :
    ((rs.map (fun r => if a = r then 1 else 0)).sum) = 1 := by
  induction rs with
  | nil => cases hmem
  | cons x t ih =>
    obtain ⟨hx, ht⟩ := List.nodup_cons.mp hnd
    simp only [List.map_cons, List.sum_cons]
    rcases List.mem_cons.mp hmem with rfl | hmem2
    · have h0 : (t.map (fun r => if a = r then 1 else 0)).sum = 0 := by
        apply List.sum_eq_zero
        intro y hy
        obtain ⟨r, hr, rfl⟩ := List.mem_map.mp hy
        rw [if_neg (fun (he : a = r) => hx (he ▸ hr))]
      rw [if_pos rfl, h0]
    · have hax : ¬ a = x := fun he => hx (he ▸ hmem2)
      rw [if_neg hax, ih ht hmem2]

theorem sum_map_zero_fun {α : Type} (rs : List α) :
    ((rs.map (fun _ => (0 : Nat))).sum) = 0 := by
  apply List.sum_eq_zero
  intro y hy
  obtain ⟨r, _, rfl⟩ := List.mem_map.mp hy
  rfl

/-- Summing the per-RCA-value counts of a key over a duplicate-free column
list that covers all RCA values of that key gives the total number of
occurrences of the key. -/
theorem sum_countP_pairs {l : List (Key × String)} {k : Key}
    {rs : List String} (hnd : rs.Nodup)
    (hcover : ∀ y ∈ l, y.1 = k → y.2 ∈ rs) :
    ((rs.map (fun r => l.countP (fun z => decide (z = (k, r))))).sum) =
      l.countP (fun z => decide (z.1 = k)) := by
  induction l with
  | nil =>
    simp only [List.countP_nil]
    exact sum_map_zero_fun rs
  | cons x t ih =>
    have htail : ∀ y ∈ t, y.1 = k → y.2 ∈ rs :=
      fun y hy => hcover y (List.mem_cons_of_mem x hy)
    simp only [List.countP_cons]
    have hsum : ((rs.map (fun r =>
        t.countP (fun z => decide (z = (k, r))) +
          if decide (x = (k, r)) = true then 1 else 0)).sum) =
        (rs.map (fun r => t.countP (fun z => decide (z = (k, r))))).sum +
          (rs.map (fun r => if decide (x = (k, r)) = true then 1
            else 0)).sum :=
      sum_map_add rs _ _
    rw [hsum, ih htail]
    by_cases hk : x.1 = k
    · have hxr : x.2 ∈ rs := hcover x (List.mem_cons_self x t) hk
      have hone : ((rs.map (fun r => if decide (x = (k, r)) = true then 1
          else 0)).sum) = 1 := by
        have hcong : rs.map (fun r => if decide (x = (k, r)) = true then 1
            else 0) = rs.map (fun r => if x.2 = r then 1 else 0) := by
          apply List.map_congr_left
          intro r _
          by_cases hr : x.2 = r
          · rw [if_pos hr, if_pos]
            simp [Prod.ext_iff, hk, hr]
          · rw [if_neg hr, if_neg]
            simp [Prod.ext_iff, hr]
        rw [hcong]
        exact sum_map_single hnd hxr
      rw [hone]
      simp [hk]
    · have hzero : ((rs.map (fun r => if decide (x = (k, r)) = true then 1
          else 0)).sum) = 0 := by
        apply List.sum_eq_zero
        intro y hy
        obtain ⟨r, _, rfl⟩ := List.mem_map.mp hy
        rw [if_neg]
        simp only [decide_eq_true_eq]
        intro he
        exact hk (congrArg Prod.fst he)
      rw [hzero]
      simp [hk]

/-! ### Splitting a count by a disjoint pair of label predicates -/

theorem countP_and_or_disjoint {α : Type} (l : List α) (b u v : α → Bool)
    (hdisj : ∀ e ∈ l, ¬(u e = true ∧ v e = true)) :
    l.countP (fun e => b e && u e) + l.countP (fun e => b e && v e) =
      l.countP (fun e => b e && (u e || v e)) := by
  induction l with
  | nil => rfl
  | cons x t ih =>
    have htail := fun e he => hdisj e (List.mem_cons_of_mem x he)
    have hd := hdisj x (List.mem_cons_self x t)
    simp only [List.countP_cons]
    have hhead : (if (b x && u x) = true then 1 else 0) +
        (if (b x && v x) = true then 1 else 0) =
        if (b x && (u x || v x)) = true then 1 else 0 := by
      cases hbx : b x
      · simp
      · cases hux : u x
        · cases hvx : v x <;> simp
        · have hvx : v x = false := by
            cases hvx2 : v x
            · rfl
            · exact absurd ⟨hux, hvx2⟩ hd
          simp [hvx]
    have he := ih htail
    omega

theorem countP_and_not {α : Type} (l : List α) (b w : α → Bool) :
    l.countP (fun e => b e && w e) + l.countP (fun e => b e && !(w e)) =
      l.countP b := by
  induction l with
  | nil => rfl
  | cons x t ih =>
    simp only [List.countP_cons]
    have hhead : (if (b x && w x) = true then 1 else 0) +
        (if (b x && !(w x)) = true then 1 else 0) =
        if b x = true then 1 else 0 := by
      cases hb : b x <;> cases hw : w x <;> simp
    omega

theorem countP_and_eq_iff {α : Type} (l : List α) (b w : α → Bool) :
    l.countP (fun e => b e && w e) = l.countP b ↔
      ∀ e ∈ l, b e = true → w e = true := by
  have hsplit := countP_and_not l b w
  constructor
  · intro heq e he hbe
    have h0 : l.countP (fun e => b e && !(w e)) = 0 := by omega
    have hnot := List.countP_eq_zero.mp h0 e he
    simp only [Bool.and_eq_true, Bool.not_eq_true'] at hnot
    cases hw : w e
    · exact absurd ⟨hbe, hw⟩ hnot
    · rfl
  · intro hall
    have h0 : l.countP (fun e => b e && !(w e)) = 0 := by
      rw [List.countP_eq_zero]
      intro e he hc
      simp only [Bool.and_eq_true, Bool.not_eq_true'] at hc
      rw [hall e he hc.1] at hc
      cases hc.2
    omega

/-- The two label enumerations of lines 32–33 are disjoint. -/
theorem ctrl_vals_disjoint (s : String) :
    ¬(s ∈ controllableVals ∧ s ∈ nonControllableVals) := by
  intro hs
  obtain ⟨h1, h2⟩ := hs
  simp only [controllableVals, nonControllableVals, List.mem_cons,
    List.not_mem_nil, or_false] at h1 h2
  rcases h1 with rfl | rfl <;> rcases h2 with h | h <;> exact absurd h (by decide)

/-! ### The claims -/

/-- Claim C2: for every case the extractor selects the email-channel correct
list when `method = "Call"` and the call-channel correct list otherwise, and
returns `false_positives = applied − correct` and `false_negatives =
correct − applied` as duplicate-free unordered sets; consequently
`false_positives ∩ correct = ∅` and `false_negatives ∩ applied = ∅`. -/
theorem C2_extractor_set_semantics (c : Case) :
    (Breakdown.identify_mistaken_policies c).1.Nodup ∧
    (Breakdown.identify_mistaken_policies c).2.Nodup ∧
    (Breakdown.identify_mistaken_policies c).1.toFinset =
      c.policyList.toFinset \
        (if c.method = "Call" then c.correctEmailPolicyList
         else c.correctCallPolicyList).toFinset ∧
    (Breakdown.identify_mistaken_policies c).2.toFinset =
      (if c.method = "Call" then c.correctEmailPolicyList
       else c.correctCallPolicyList).toFinset \ c.policyList.toFinset ∧
    (Breakdown.identify_mistaken_policies c).1.toFinset ∩
      (if c.method = "Call" then c.correctEmailPolicyList
       else c.correctCallPolicyList).toFinset = ∅ ∧
    (Breakdown.identify_mistaken_policies c).2.toFinset ∩
      c.policyList.toFinset = ∅ := by
  refine ⟨List.Nodup.filter _ (List.nodup_dedup _),
    List.Nodup.filter _ (List.nodup_dedup _), ?_, ?_, ?_, ?_⟩
  · ext p
    simp only [Breakdown.identify_mistaken_policies, List.mem_toFinset,
      List.mem_filter, List.mem_dedup, decide_eq_true_eq, Finset.mem_sdiff]
  · ext p
    simp only [Breakdown.identify_mistaken_policies, List.mem_toFinset,
      List.mem_filter, List.mem_dedup, decide_eq_true_eq, Finset.mem_sdiff]
  · ext p
    simp only [Breakdown.identify_mistaken_policies, Finset.mem_inter,
      List.mem_toFinset, List.mem_filter, List.mem_dedup, decide_eq_true_eq,
      Finset.not_mem_empty, iff_false]
    tauto
  · ext p
    simp only [Breakdown.identify_mistaken_policies, Finset.mem_inter,
      List.mem_toFinset, List.mem_filter, List.mem_dedup, decide_eq_true_eq,
      Finset.not_mem_empty, iff_false]
    tauto

/-- Claim C8: the false-positive and false-negative collections returned by
the extractor are disjoint for every case. -/
theorem C8_fp_fn_disjoint (c : Case) :
    (Breakdown.identify_mistaken_policies c).1.toFinset ∩
      (Breakdown.identify_mistaken_policies c).2.toFinset = ∅ := by
  ext p
  simp only [Breakdown.identify_mistaken_policies, Finset.mem_inter,
    List.mem_toFinset, List.mem_filter, List.mem_dedup, decide_eq_true_eq,
    Finset.not_mem_empty, iff_false]
  tauto

/-- Claim C9: the two mismatch-extractor implementations (breakdown script
and dashboard script) return the same pair of lists on every row. -/
theorem C9_extractors_agree (row : Case) :
    Dashboard.identify_mistaken_policies row =
      Breakdown.identify_mistaken_policies row := rfl

/-- Claim C1: only cases with `is_task_correct = "wrong"` contribute, and
for every output row `FP Count` (resp. `FN Count`) is exactly the number of
mistaken cases of that market whose false-positive (resp. false-negative)
set contains the row's policy, with `Mistakes = FP Count + FN Count`. -/
theorem C1_fp_fn_counts (input : List Case) (row : BRow)
    (h : row ∈ (processTable input).rows) :
    row.fpCount = input.countP (fun c =>
      (decide (c.market = row.market) &&
        decide (row.policy ∈ (Breakdown.identify_mistaken_policies c).1)) &&
      decide (c.isTaskCorrect = "wrong")) ∧
    row.fnCount = input.countP (fun c =>
      (decide (c.market = row.market) &&
        decide (row.policy ∈ (Breakdown.identify_mistaken_policies c).2)) &&
      decide (c.isTaskCorrect = "wrong")) ∧
    row.mistakes = row.fpCount + row.fnCount := by
  obtain ⟨h1, h2, h3, -⟩ := mem_rows_char h
  refine ⟨?_, ?_, h3⟩
  · refine h1.trans ?_
    refine (List.countP_filter _ _ _).trans ?_
    exact List.countP_map _ _ _
  · refine h2.trans ?_
    refine (List.countP_filter _ _ _).trans ?_
    exact List.countP_map _ _ _

/-- Witness for C1 on the specification's three-case example. -/
theorem C1_fp_fn_counts_witness :
    sampleRowA ∈ (processTable sampleInput).rows ∧
    sampleRowA.mistakes = sampleRowA.fpCount + sampleRowA.fnCount :=
  ⟨by decide, (C1_fp_fn_counts sampleInput sampleRowA (by decide)).2.2⟩

/-- Claim C5: `Total Cases` is the number of all cases (mistaken or not) in
the row's market — never a global total — each impact column is that count
ratio rendered as a percentage rounded to two decimals, and the rendered
`Overall Impact` is within 0.01 percentage points of the exact ratio. -/
theorem C5_impact_percentages (input : List Case) (row : BRow)
    (h : row ∈ (processTable input).rows) :
    row.overallImpact = round2 ((row.mistakes : ℚ) /
      (input.countP (fun c => decide (c.market = row.market)) : ℚ) * 100) ∧
    row.impactControllable = round2 ((row.controllableCount : ℚ) /
      (input.countP (fun c => decide (c.market = row.market)) : ℚ) * 100) ∧
    row.impactNonControllable = round2 ((row.nonControllableCount : ℚ) /
      (input.countP (fun c => decide (c.market = row.market)) : ℚ) * 100) ∧
    |row.overallImpact - (row.mistakes : ℚ) /
      (input.countP (fun c => decide (c.market = row.market)) : ℚ) * 100| ≤
      1 / 100 := by
  obtain ⟨-, -, -, -, -, h6, h7, h8, -, -⟩ := mem_rows_char h
  have g6 := h6.trans (pct_eq_round2 _ _)
  have g7 := h7.trans (pct_eq_round2 _ _)
  have g8 := h8.trans (pct_eq_round2 _ _)
  refine ⟨g6, g7, g8, ?_⟩
  rw [g6]
  exact round2_close _

/-- Witness for C5 on the specification's three-case example. -/
theorem C5_impact_percentages_witness :
    sampleRowA ∈ (processTable sampleInput).rows ∧
    |sampleRowA.overallImpact - (sampleRowA.mistakes : ℚ) /
      (sampleInput.countP
        (fun c => decide (c.market = sampleRowA.market)) : ℚ) * 100| ≤
      1 / 100 :=
  ⟨by decide,
    (C5_impact_percentages sampleInput sampleRowA (by decide)).2.2.2⟩

/-- Claim C10: every emitted breakdown row has at least one contributing
exploded mismatch occurrence: `Mistakes ≥ 1`, equivalently
`FP Count + FN Count ≥ 1`; no all-zero (market, policy) row exists. -/
theorem C10_no_zero_rows (input : List Case) (row : BRow)
    (h : row ∈ (processTable input).rows) :
    1 ≤ row.mistakes ∧ 1 ≤ row.fpCount + row.fnCount := by
  obtain ⟨-, -, h3, -, -, -, -, -, -, h10⟩ := mem_rows_char h
  exact ⟨h10, by omega⟩

/-- Witness for C10 on the specification's three-case example. -/
theorem C10_no_zero_rows_witness :
    sampleRowA ∈ (processTable sampleInput).rows ∧ 1 ≤ sampleRowA.mistakes :=
  ⟨by decide, (C10_no_zero_rows sampleInput sampleRowA (by decide)).1⟩

/-- Claim C7 (amended): the final table is sorted by `Mistakes` in
descending order, but rows with equal `Mistakes` do NOT keep the relative
order of the grouping step — `sort_values(ascending=False)` reverses a
stable ascending sort, so tied rows come out in reversed grouping order. -/
theorem C7_sorted_desc (input : List Case) :
    (processTable input).rows.Pairwise
      (fun a b => b.mistakes ≤ a.mistakes) ∧
    (processTable input).rows =
      ((sortLE mistakesLE (baseRows (input.map annotate))).reverse).map
        (attachRCA (mistakesOf (input.map annotate))) := by
  refine ⟨?_, rfl⟩
  have htot : ∀ a b : BRow,
      mistakesLE a b = true ∨ mistakesLE b a = true := by
    intro a b
    simp only [mistakesLE, decide_eq_true_eq]
    omega
  have htrans : ∀ a b c : BRow, mistakesLE a b = true →
      mistakesLE b c = true → mistakesLE a c = true := by
    intro a b c
    simp only [mistakesLE, decide_eq_true_eq]
    omega
  have hp := pairwise_sortLE htot htrans (baseRows (input.map annotate))
  show ((((sortLE mistakesLE (baseRows (input.map annotate))).reverse).map
    (attachRCA (mistakesOf (input.map annotate)))).Pairwise
      (fun a b => b.mistakes ≤ a.mistakes))
  rw [List.pairwise_map, List.pairwise_reverse]
  refine hp.imp ?_
  intro a b hab
  simp only [mistakesLE, decide_eq_true_eq] at hab
  exact hab

/-- Counterexample for C7 as stated: on `tieInput` the grouping step emits
(M, P1) before (M, P2), both with `Mistakes = 2`, yet the final table has
(M, P2) first — tied rows do not keep the grouping order. -/
theorem C7_tie_order_counterexample :
    ((processTable tieInput).rows.map (fun r => r.policy)) = ["P2", "P1"] ∧
    ((baseRows (tieInput.map annotate)).map (fun r => r.policy)) =
      ["P1", "P2"] ∧
    ((processTable tieInput).rows.map (fun r => r.mistakes)) = [2, 2] := by
  refine ⟨by decide, by decide, by decide⟩

/-- Claim C4 (amended): the RCA pivot has one duplicate-free integer count
column per distinct RCA value observed among the exploded mistake rows
anywhere in the dataset (an RCA value occurring only on non-mistaken cases,
or on mistaken cases with empty mismatch sets, gets no column), every row
carries an entry for every column — unobserved combinations filled with the
exact count 0 — and the per-row sum of the RCA counts equals `Mistakes`. -/
theorem C4_rca_pivot (input : List Case) :
    (processTable input).rcaColumns.Nodup ∧
    (∀ r, r ∈ (processTable input).rcaColumns ↔
      r ∈ (rcaPairs (mistakesOf (input.map annotate))).map
        (fun y => y.2)) ∧
    ∀ row ∈ (processTable input).rows,
      row.rcaCounts.map (fun y => y.1) = (processTable input).rcaColumns ∧
      (∀ y ∈ row.rcaCounts, y.2 =
        (rcaPairs (mistakesOf (input.map annotate))).countP
          (fun z => decide (z = ((row.market, row.policy), y.1)))) ∧
      (row.rcaCounts.map (fun y => y.2)).sum = row.mistakes := by
  refine ⟨?_, ?_, ?_⟩
  · exact ((sortLE_perm strLE _).nodup_iff).mpr (List.nodup_dedup _)
  · intro r
    show r ∈ sortLE strLE ((rcaPairs (mistakesOf (input.map annotate))).map
      (fun y => y.2)).dedup ↔ _
    rw [mem_sortLE, List.mem_dedup]
  · intro row h
    obtain ⟨h1, h2, h3, -, -, -, -, -, h9, -⟩ := mem_rows_char h
    refine ⟨?_, ?_, ?_⟩
    · rw [h9, List.map_map]
      have hc : ((fun y : String × Nat => y.1) ∘ (fun r =>
          (r, (rcaPairs (mistakesOf (input.map annotate))).countP
            (fun z => decide (z = ((row.market, row.policy), r)))))) =
          fun r => r := rfl
      rw [hc, List.map_id']
      rfl
    · intro y hy
      rw [h9] at hy
      obtain ⟨r, _, rfl⟩ := List.mem_map.mp hy
      rfl
    · rw [h9, List.map_map]
      have hc : ((fun y : String × Nat => y.2) ∘ (fun r =>
          (r, (rcaPairs (mistakesOf (input.map annotate))).countP
            (fun z => decide (z = ((row.market, row.policy), r)))))) =
          fun r => (rcaPairs (mistakesOf (input.map annotate))).countP
            (fun z => decide (z = ((row.market, row.policy), r))) := rfl
      rw [hc]
      have hnd : (rcaColumnsOf (mistakesOf (input.map annotate))).Nodup :=
        ((sortLE_perm strLE _).nodup_iff).mpr (List.nodup_dedup _)
      have hcover : ∀ y ∈ rcaPairs (mistakesOf (input.map annotate)),
          y.1 = (row.market, row.policy) →
          y.2 ∈ rcaColumnsOf (mistakesOf (input.map annotate)) := by
        intro y hy _
        show y.2 ∈ sortLE strLE _
        rw [mem_sortLE, List.mem_dedup]
        exact List.mem_map.mpr ⟨y, hy, rfl⟩
      refine (sum_countP_pairs hnd hcover).trans ?_
      have hsplit : (rcaPairs (mistakesOf (input.map annotate))).countP
          (fun z => decide (z.1 = (row.market, row.policy))) =
          row.fpCount + row.fnCount := by
        refine (List.countP_map _ _ _).trans ?_
        refine (List.countP_append _ _ _).trans ?_
        have hfp : (explodeCol (fun e => e.fp)
            (mistakesOf (input.map annotate))).countP
              (fun x => decide (x.1 = (row.market, row.policy))) =
            row.fpCount := by
          refine ((List.countP_map (fun y : Key =>
            decide (y = (row.market, row.policy))) (fun x : Key × ECase =>
              x.1) _).symm).trans ?_
          refine (countP_keysOf_explode _ _ (mistakes_fp_nodup input)
            row.market row.policy).trans h1.symm
        have hfn : (explodeCol (fun e => e.fn)
            (mistakesOf (input.map annotate))).countP
              (fun x => decide (x.1 = (row.market, row.policy))) =
            row.fnCount := by
          refine ((List.countP_map (fun y : Key =>
            decide (y = (row.market, row.policy))) (fun x : Key × ECase =>
              x.1) _).symm).trans ?_
          refine (countP_keysOf_explode _ _ (mistakes_fn_nodup input)
            row.market row.policy).trans h2.symm
        show (explodeCol (fun e => e.fp)
            (mistakesOf (input.map annotate))).countP
              (fun x => decide (x.1 = (row.market, row.policy))) +
          (explodeCol (fun e => e.fn)
            (mistakesOf (input.map annotate))).countP
              (fun x => decide (x.1 = (row.market, row.policy))) =
          row.fpCount + row.fnCount
        rw [hfp, hfn]
      exact hsplit.trans h3.symm

/-- Counterexample for C4 as stated: in `rcaInput` the RCA value `"System"`
is observed in the dataset (on the second, non-mistaken case) yet the pivot
contributes no column for it. -/
theorem C4_columns_counterexample :
    (processTable rcaInput).rcaColumns = ["Training"] ∧
    "System" ∈ rcaInput.map (fun c => c.rca) ∧
    "System" ∉ (processTable rcaInput).rcaColumns := by
  refine ⟨by decide, by decide, by decide⟩

/-- Witness for the amended C4 on the specification's three-case example. -/
theorem C4_rca_pivot_witness :
    sampleRowA ∈ (processTable sampleInput).rows ∧
    (sampleRowA.rcaCounts.map (fun y => y.2)).sum = sampleRowA.mistakes :=
  ⟨by decide,
    ((C4_rca_pivot sampleInput).2.2 sampleRowA (by decide)).2.2⟩

/-- Claim C3: for every output row `Controllable Count + Non-Controllable
Count ≤ Mistakes`, with equality exactly when every contributing exploded
mistake occurrence carries a `controllable` label inside the known
enumerations; rows with labels outside both lists are excluded from the
split but still counted in `Mistakes`. -/
theorem C3_controllability_split (input : List Case) (row : BRow)
    (h : row ∈ (processTable input).rows) :
    row.controllableCount + row.nonControllableCount ≤ row.mistakes ∧
    (row.controllableCount + row.nonControllableCount = row.mistakes ↔
      ∀ c ∈ input, c.isTaskCorrect = "wrong" → c.market = row.market →
        (row.policy ∈ (Breakdown.identify_mistaken_policies c).1 ∨
          row.policy ∈ (Breakdown.identify_mistaken_policies c).2) →
        (c.controllable ∈ controllableVals ∨
          c.controllable ∈ nonControllableVals)) := by
  obtain ⟨h1, h2, h3, h4, h5, -⟩ := mem_rows_char h
  have hdisj : ∀ e ∈ mistakesOf (input.map annotate),
      ¬(decide (e.controllable ∈ controllableVals) = true ∧
        decide (e.controllable ∈ nonControllableVals) = true) := by
    intro e _ hc
    exact ctrl_vals_disjoint e.controllable
      ⟨of_decide_eq_true hc.1, of_decide_eq_true hc.2⟩
  have e1 : (mistakesOf (input.map annotate)).countP
        (fun e => (decide (e.market = row.market) &&
          decide (row.policy ∈ e.fp)) &&
          decide (e.controllable ∈ controllableVals)) +
      (mistakesOf (input.map annotate)).countP
        (fun e => (decide (e.market = row.market) &&
          decide (row.policy ∈ e.fp)) &&
          decide (e.controllable ∈ nonControllableVals)) =
      (mistakesOf (input.map annotate)).countP
        (fun e => (decide (e.market = row.market) &&
          decide (row.policy ∈ e.fp)) &&
          (decide (e.controllable ∈ controllableVals) ||
            decide (e.controllable ∈ nonControllableVals))) :=
    countP_and_or_disjoint _ _ _ _ hdisj
  have e2 : (mistakesOf (input.map annotate)).countP
        (fun e => (decide (e.market = row.market) &&
          decide (row.policy ∈ e.fn)) &&
          decide (e.controllable ∈ controllableVals)) +
      (mistakesOf (input.map annotate)).countP
        (fun e => (decide (e.market = row.market) &&
          decide (row.policy ∈ e.fn)) &&
          decide (e.controllable ∈ nonControllableVals)) =
      (mistakesOf (input.map annotate)).countP
        (fun e => (decide (e.market = row.market) &&
          decide (row.policy ∈ e.fn)) &&
          (decide (e.controllable ∈ controllableVals) ||
            decide (e.controllable ∈ nonControllableVals))) :=
    countP_and_or_disjoint _ _ _ _ hdisj
  have l1 : (mistakesOf (input.map annotate)).countP
        (fun e => (decide (e.market = row.market) &&
          decide (row.policy ∈ e.fp)) &&
          (decide (e.controllable ∈ controllableVals) ||
            decide (e.controllable ∈ nonControllableVals))) +
      (mistakesOf (input.map annotate)).countP
        (fun e => (decide (e.market = row.market) &&
          decide (row.policy ∈ e.fp)) &&
          !(decide (e.controllable ∈ controllableVals) ||
            decide (e.controllable ∈ nonControllableVals))) =
      (mistakesOf (input.map annotate)).countP
        (fun e => decide (e.market = row.market) &&
          decide (row.policy ∈ e.fp)) :=
    countP_and_not _ _ _
  have l2 : (mistakesOf (input.map annotate)).countP
        (fun e => (decide (e.market = row.market) &&
          decide (row.policy ∈ e.fn)) &&
          (decide (e.controllable ∈ controllableVals) ||
            decide (e.controllable ∈ nonControllableVals))) +
      (mistakesOf (input.map annotate)).countP
        (fun e => (decide (e.market = row.market) &&
          decide (row.policy ∈ e.fn)) &&
          !(decide (e.controllable ∈ controllableVals) ||
            decide (e.controllable ∈ nonControllableVals))) =
      (mistakesOf (input.map annotate)).countP
        (fun e => decide (e.market = row.market) &&
          decide (row.policy ∈ e.fn)) :=
    countP_and_not _ _ _
  have i1 : ((mistakesOf (input.map annotate)).countP
        (fun e => (decide (e.market = row.market) &&
          decide (row.policy ∈ e.fp)) &&
          (decide (e.controllable ∈ controllableVals) ||
            decide (e.controllable ∈ nonControllableVals))) =
      (mistakesOf (input.map annotate)).countP
        (fun e => decide (e.market = row.market) &&
          decide (row.policy ∈ e.fp))) ↔
      ∀ e ∈ mistakesOf (input.map annotate),
        (decide (e.market = row.market) &&
          decide (row.policy ∈ e.fp)) = true →
        (decide (e.controllable ∈ controllableVals) ||
          decide (e.controllable ∈ nonControllableVals)) = true :=
    countP_and_eq_iff _ _ _
  have i2 : ((mistakesOf (input.map annotate)).countP
        (fun e => (decide (e.market = row.market) &&
          decide (row.policy ∈ e.fn)) &&
          (decide (e.controllable ∈ controllableVals) ||
            decide (e.controllable ∈ nonControllableVals))) =
      (mistakesOf (input.map annotate)).countP
        (fun e => decide (e.market = row.market) &&
          decide (row.policy ∈ e.fn))) ↔
      ∀ e ∈ mistakesOf (input.map annotate),
        (decide (e.market = row.market) &&
          decide (row.policy ∈ e.fn)) = true →
        (decide (e.controllable ∈ controllableVals) ||
          decide (e.controllable ∈ nonControllableVals)) = true :=
    countP_and_eq_iff _ _ _
  constructor
  · omega
  · constructor
    · intro heq
      have hc1 := i1.mp (by omega)
      have hc2 := i2.mp (by omega)
      intro c hcmem hwrong hmarket hmem
      have hmsmem : annotate c ∈ mistakesOf (input.map annotate) :=
        List.mem_filter.mpr
          ⟨List.mem_map_of_mem annotate hcmem, decide_eq_true hwrong⟩
      rcases hmem with hfp | hfn
      · have hb : (decide ((annotate c).market = row.market) &&
            decide (row.policy ∈ (annotate c).fp)) = true := by
          simp only [Bool.and_eq_true, decide_eq_true_eq]
          exact ⟨hmarket, hfp⟩
        have hr := hc1 (annotate c) hmsmem hb
        simp only [Bool.or_eq_true, decide_eq_true_eq] at hr
        exact hr
      · have hb : (decide ((annotate c).market = row.market) &&
            decide (row.policy ∈ (annotate c).fn)) = true := by
          simp only [Bool.and_eq_true, decide_eq_true_eq]
          exact ⟨hmarket, hfn⟩
        have hr := hc2 (annotate c) hmsmem hb
        simp only [Bool.or_eq_true, decide_eq_true_eq] at hr
        exact hr
    · intro hall
      have p1 : ∀ e ∈ mistakesOf (input.map annotate),
          (decide (e.market = row.market) &&
            decide (row.policy ∈ e.fp)) = true →
          (decide (e.controllable ∈ controllableVals) ||
            decide (e.controllable ∈ nonControllableVals)) = true := by
        intro e he hbe
        have hdf : e ∈ input.map annotate := List.mem_of_mem_filter he
        obtain ⟨c, hcmem, rfl⟩ := List.mem_map.mp hdf
        have hwrong : c.isTaskCorrect = "wrong" :=
          of_decide_eq_true (List.mem_filter.mp he).2
        simp only [Bool.and_eq_true, decide_eq_true_eq] at hbe
        have hres := hall c hcmem hwrong hbe.1 (Or.inl hbe.2)
        simp only [Bool.or_eq_true, decide_eq_true_eq]
        exact hres
      have p2 : ∀ e ∈ mistakesOf (input.map annotate),
          (decide (e.market = row.market) &&
            decide (row.policy ∈ e.fn)) = true →
          (decide (e.controllable ∈ controllableVals) ||
            decide (e.controllable ∈ nonControllableVals)) = true := by
        intro e he hbe
        have hdf : e ∈ input.map annotate := List.mem_of_mem_filter he
        obtain ⟨c, hcmem, rfl⟩ := List.mem_map.mp hdf
        have hwrong : c.isTaskCorrect = "wrong" :=
          of_decide_eq_true (List.mem_filter.mp he).2
        simp only [Bool.and_eq_true, decide_eq_true_eq] at hbe
        have hres := hall c hcmem hwrong hbe.1 (Or.inr hbe.2)
        simp only [Bool.or_eq_true, decide_eq_true_eq]
        exact hres
      have hc1 := i1.mpr p1
      have hc2 := i2.mpr p2
      omega

/-- Witness for C3 on the specification's three-case example. -/
theorem C3_controllability_split_witness :
    sampleRowA ∈ (processTable sampleInput).rows ∧
    sampleRowA.controllableCount + sampleRowA.nonControllableCount ≤
      sampleRowA.mistakes :=
  ⟨by decide,
    (C3_controllability_split sampleInput sampleRowA (by decide)).1⟩

/-! ### C6: behaviour on malformed list-literal cells -/

theorem evalList_error_eq {s : String} {e : PyError}
    (h : evalList s = Except.error e) : e = evalFailure := by
  unfold evalList at h
  cases hp : parseListLit s with
  | none =>
    rw [hp] at h
    injection h with h2
    exact h2.symm
  | some xs =>
    rw [hp] at h
    simp at h

theorem rawIdentify_error_eq {row : RawCase} {e : PyError}
    (h : rawIdentify row = Except.error e) : e = evalFailure := by
  unfold rawIdentify at h
  cases h1 : evalList (if row.method = "Call" then row.correctEmailText
      else row.correctCallText) with
  | error e1 =>
    rw [h1] at h
    injection h with h2
    exact h2 ▸ evalList_error_eq h1
  | ok correct_policies =>
    rw [h1] at h
    cases h2 : evalList row.policyListText with
    | error e2 =>
      rw [h2] at h
      injection h with h3
      exact h3 ▸ evalList_error_eq h2
    | ok sim_policies =>
      rw [h2] at h
      simp at h

theorem applyIdentify_error (raws : List RawCase)
    (h : ∃ r, r ∈ raws ∧ ∃ e, rawIdentify r = Except.error e) :
    applyIdentify raws = Except.error evalFailure := by
  induction raws with
  | nil =>
    obtain ⟨r, hr, -⟩ := h
    cases hr
  | cons r0 t ih =>
    obtain ⟨r, hr, e, he⟩ := h
    cases ha : rawAnnotate r0 with
    | error e0 =>
      have he0 : e0 = evalFailure := by
        unfold rawAnnotate at ha
        cases hi : rawIdentify r0 with
        | error e1 =>
          rw [hi] at ha
          injection ha with h2
          exact h2 ▸ rawIdentify_error_eq hi
        | ok x =>
          rw [hi] at ha
          simp at ha
      show (match rawAnnotate r0 with
        | Except.error e => Except.error e
        | Except.ok x =>
          match applyIdentify t with
          | Except.error e => Except.error e
          | Except.ok xs => Except.ok (x :: xs)) = Except.error evalFailure
      rw [ha, he0]
    | ok x =>
      rcases List.mem_cons.mp hr with rfl | hrt
      · exfalso
        unfold rawAnnotate at ha
        rw [he] at ha
        simp at ha
      · have ht := ih ⟨r, hrt, e, he⟩
        show (match rawAnnotate r0 with
          | Except.error e => Except.error e
          | Except.ok x =>
            match applyIdentify t with
            | Except.error e => Except.error e
            | Except.ok xs => Except.ok (x :: xs)) = Except.error evalFailure
        rw [ha, ht]

/-- Claim C6 (amended): if any row's applied-policy cell or its selected
correct-policy cell is not a well-formed list literal, `process_data`
aborts — the whole run yields an error before any output is produced, and
no empty mismatch set is silently substituted — but the error is the bare
uncaught `eval` exception, which identifies neither the offending row nor
the offending field, and a malformed correct-policy cell of the channel
that `Method` does not select is never parsed at all. -/
theorem C6_parse_failure_aborts (raws : List RawCase)
    (h : ∃ r, r ∈ raws ∧
      (evalList (if r.method = "Call" then r.correctEmailText
        else r.correctCallText) = Except.error evalFailure ∨
       evalList r.policyListText = Except.error evalFailure)) :
    process_data raws = Except.error evalFailure ∧
    evalFailure.rowIndex = none ∧ evalFailure.fieldName = none := by
  refine ⟨?_, rfl, rfl⟩
  have hex : ∃ r, r ∈ raws ∧ ∃ e, rawIdentify r = Except.error e := by
    obtain ⟨r, hr, hcase⟩ := h
    refine ⟨r, hr, ?_⟩
    rcases hcase with hc | hp
    · exact ⟨evalFailure, by unfold rawIdentify; rw [hc]⟩
    · cases hc2 : evalList (if r.method = "Call" then r.correctEmailText
          else r.correctCallText) with
      | error e1 => exact ⟨e1, by unfold rawIdentify; rw [hc2]⟩
      | ok correct_policies =>
        exact ⟨evalFailure, by unfold rawIdentify; rw [hc2, hp]⟩
  have happ := applyIdentify_error raws hex
  unfold process_data
  rw [happ]

/-- Counterexample for C6 as stated: the malformed applied-policy cell
`"[A,B"` aborts the run with a bare error naming neither row nor field, and
a malformed correct-policy cell on the channel that `Method` does not
select is never parsed — the run succeeds. -/
theorem C6_error_counterexample :
    process_data [badAppliedRaw] = Except.error evalFailure ∧
    evalFailure.rowIndex = none ∧ evalFailure.fieldName = none ∧
    process_data [unusedBadRaw] =
      Except.ok (processTable
        [{ market := "US", method := "Call", policyList := ["A"],
           correctCallPolicyList := [], correctEmailPolicyList := ["A"],
           isTaskCorrect := "correct", controllable := "Yes",
           rca := "Training" }]) := by
  refine ⟨rfl, rfl, rfl, rfl⟩

/-- Witness for the amended C6 on the malformed one-row table. -/
theorem C6_parse_failure_aborts_witness :
    (∃ r, r ∈ [badAppliedRaw] ∧
      (evalList (if r.method = "Call" then r.correctEmailText
        else r.correctCallText) = Except.error evalFailure ∨
       evalList r.policyListText = Except.error evalFailure)) ∧
    process_data [badAppliedRaw] = Except.error evalFailure :=
  ⟨⟨badAppliedRaw, List.mem_cons_self badAppliedRaw [], Or.inr rfl⟩,
    (C6_parse_failure_aborts [badAppliedRaw]
      ⟨badAppliedRaw, List.mem_cons_self badAppliedRaw [], Or.inr rfl⟩).1⟩

end AirlinesQA
